import Mathlib

/- Shallow embedding of the lunar→solar conversion plugin (src/main.ts).
   JS strings are modelled as `List Char`.  The external astronomical
   primitives from lunar-typescript and the moment.js date formatter are
   out-of-scope black boxes per the spec, so they appear as parameters
   (an oracle structure and a formatting function). -/

namespace LunarSolar

/-- The characters of the JS whitespace class: matched by the regex class
in `LUNAR_INPUT_RE` and removed by `String.prototype.trim` in
`parseLeapStrategy` (both use the same ECMAScript WhiteSpace and
LineTerminator sets). -/
def isJsWhitespace (c : Char) : Bool :=
  c == ' ' || c == '\t' || c == '\n' || c == '\r' ||
  c == '\x0b' || c == '\x0c' || c == '\u00a0' || c == '\u1680' ||
  (decide ('\u2000' ≤ c) && decide (c ≤ '\u200a')) ||
  c == '\u2028' || c == '\u2029' || c == '\u202f' || c == '\u205f' ||
  c == '\u3000' || c == '\ufeff'

/-- JS `String.prototype.trim`: drop whitespace from both ends. -/
def jsTrim (s : List Char) : List Char :=
  ((s.dropWhile isJsWhitespace).reverse.dropWhile isJsWhitespace).reverse

/-- The three leap strategies of the source: `type LeapStrategy =
"strict" | "forward" | "backward"`. -/
inductive LeapStrategy
  | strict
  | forward
  | backward
deriving DecidableEq

/-- What `LEAP_STRATEGY_LOOKUP[trimmed]` can evaluate to at runtime.
`LEAP_STRATEGY_LOOKUP` is a plain object literal, so a property read on it
falls back to `Object.prototype`: for a key such as `"constructor"` or
`"toString"` the read yields the inherited member (a function or object,
hence truthy) instead of `undefined`. -/
inductive RuntimeStrategy
  | strat (s : LeapStrategy)
  | protoMember (name : List Char)
deriving DecidableEq

/-- The property names `LEAP_STRATEGY_LOOKUP` inherits from
`Object.prototype` (all of them hold functions, or for `__proto__` an
object; every one is truthy). -/
def objectProtoKeys : List (List Char) :=
  ["constructor".data, "hasOwnProperty".data, "isPrototypeOf".data,
   "propertyIsEnumerable".data, "toLocaleString".data, "toString".data,
   "valueOf".data, "__proto__".data, "__defineGetter__".data,
   "__defineSetter__".data, "__lookupGetter__".data, "__lookupSetter__".data]

/-- The JS property read `LEAP_STRATEGY_LOOKUP[key]`, `none` standing for
`undefined` (falsy).  Own properties are the six entries of the object
literal at src/main.ts:59-66; other keys reach `Object.prototype`. -/
def leapStrategyLookup (key : List Char) : Option RuntimeStrategy :=
  if key = "严格闰月".data then some (.strat .strict)
  else if key = "向前折算".data then some (.strat .forward)
  else if key = "向后折算".data then some (.strat .backward)
  else if key = "strict".data then some (.strat .strict)
  else if key = "forward".data then some (.strat .forward)
  else if key = "backward".data then some (.strat .backward)
  else if key ∈ objectProtoKeys then some (.protoMember key)
  else none

/-- A frontmatter value as the code sees it: `typeof raw === "string"`
distinguishes strings from everything else. -/
inductive JsVal
  | vstr (s : List Char)
  | vother
deriving DecidableEq

/-- `parseLeapStrategy` (src/main.ts:441-448): trim the string, look it up,
return the looked-up value when truthy, else the fallback. -/
def parseLeapStrategy (value : Option JsVal) (fallback : LeapStrategy) :
    RuntimeStrategy :=
  match value with
  | some (.vstr s) =>
    match leapStrategyLookup (jsTrim s) with
    | some mapped => mapped
    | none => .strat fallback
  | _ => .strat fallback

/-- The six recognized strategy strings with the variant each maps to
(three internal identifiers and three human-readable labels). -/
def recognizedStrategyStrings : List (List Char × LeapStrategy) :=
  [("严格闰月".data, .strict), ("向前折算".data, .forward),
   ("向后折算".data, .backward), ("strict".data, .strict),
   ("forward".data, .forward), ("backward".data, .backward)]

/-- `interface LunarDate` (src/main.ts:20-25). -/
structure LunarDate where
  year : Nat
  month : Nat
  day : Nat
  isLeap : Bool
deriving DecidableEq

/-- The JS digit class `\d` is exactly [0-9]. -/
def isAsciiDigit (c : Char) : Bool :=
  decide ('0' ≤ c) && decide (c ≤ '9')

/-- `Number(s)` on an all-digit string. -/
def digitsToNat (ds : List Char) : Nat :=
  ds.foldl (fun n c => n * 10 + (c.toNat - '0'.toNat)) 0

/-- Match exactly `n` digits (the regex `\d{n}`), returning their numeric
value and the rest of the input. -/
def takeDigits (n : Nat) (s : List Char) : Option (Nat × List Char) :=
  let ds := s.take n
  if ds.length = n ∧ ds.all isAsciiDigit then some (digitsToNat ds, s.drop n)
  else none

/-- Consume an optional literal prefix (the regex `(?:农历)?`; the greedy
optional is deterministic here because the prefix characters cannot start
the alternatives that follow it). -/
def dropLiteral (t : List Char) (s : List Char) : List Char :=
  if t.isPrefixOf s then s.drop t.length else s

/-- `parseLunar` (src/main.ts:419-439): the anchored regex
`^(?:农历)?\s*(\d{4})-(闰)?(\d{2})-(\d{2})\s*$` followed by `Number`
conversions.  The `Number.isInteger` guards of the source are vacuously
true on all-digit captures, so the regex match alone decides
acceptance. -/
def parseLunar (raw : List Char) : Option LunarDate :=
  let s1 := (dropLiteral "农历".data raw).dropWhile isJsWhitespace
  match takeDigits 4 s1 with
  | none => none
  | some (year, s2) =>
    match s2 with
    | '-' :: s3 =>
      let leapSplit : Bool × List Char :=
        match s3 with
        | '闰' :: rest => (true, rest)
        | _ => (false, s3)
      match takeDigits 2 leapSplit.2 with
      | none => none
      | some (month, s5) =>
        match s5 with
        | '-' :: s6 =>
          match takeDigits 2 s6 with
          | none => none
          | some (day, s7) =>
            if s7.all isJsWhitespace then
              some ⟨year, month, day, leapSplit.1⟩
            else none
        | _ => none
    | _ => none

/-- A calendar date at day precision (the code truncates every result to
day granularity before comparing or formatting). -/
structure SolarDate where
  year : Int
  month : Nat
  day : Nat
deriving DecidableEq

/-- Day-granularity `isSameOrAfter` comparison of moment, as
`dayLE a b = (a ≤ b)`. -/
def dayLE (a b : SolarDate) : Bool :=
  if a.year = b.year then
    if a.month = b.month then decide (a.day ≤ b.day)
    else decide (a.month < b.month)
  else decide (a.year < b.year)

/-- The external lunar-typescript primitives, as black boxes (the spec
assumes them correct): `fromYmd year lunarMonth day` is
`Lunar.fromYmd(...).getSolar()` with `none` for a thrown error, and
`leapMonth y` is `LunarYear.fromYear(y).getLeapMonth()` with `none` for a
thrown error. -/
structure ConvOracle where
  fromYmd : Int → Int → Nat → Option SolarDate
  leapMonth : Int → Option Int

/-- `yearHasLeapMonth` (src/main.ts:450-458): a thrown lookup error is
caught and treated as "no leap month". -/
def yearHasLeapMonth (o : ConvOracle) (year : Int) (month : Nat) : Bool :=
  match o.leapMonth year with
  | some lm => lm == (month : Int)
  | none => false

/-- The `{month, isLeap}` pair fed to the conversion primitive. -/
structure ResolvedLunarMonth where
  month : Nat
  isLeap : Bool
deriving DecidableEq

/-- `resolveLunarMonth` (src/main.ts:460-488).  The three strategy tests
are string comparisons; a leaked `Object.prototype` member (see
`RuntimeStrategy`) equals none of them and reaches the final
`return null`. -/
def resolveLunarMonth (o : ConvOracle) (year : Int) (lunar : LunarDate)
    (strategy : RuntimeStrategy) : Option ResolvedLunarMonth :=
  if !lunar.isLeap then some ⟨lunar.month, false⟩
  else
    let hasLeap := yearHasLeapMonth o year lunar.month
    match strategy with
    | .strat .strict =>
      if !hasLeap then none else some ⟨lunar.month, true⟩
    | .strat .forward =>
      if hasLeap then some ⟨lunar.month, true⟩
      else some ⟨lunar.month, false⟩
    | .strat .backward =>
      if hasLeap then some ⟨lunar.month, true⟩
      else some ⟨(if lunar.month = 12 then 12 else lunar.month + 1), false⟩
    | .protoMember _ => none

/-- `toSolar` (src/main.ts:490-511): resolve the month, negate it when
leap, call the conversion primitive; a thrown conversion error is caught
and becomes `none`. -/
def toSolar (o : ConvOracle) (year : Int) (lunar : LunarDate)
    (strategy : RuntimeStrategy) : Option SolarDate :=
  match resolveLunarMonth o year lunar strategy with
  | none => none
  | some resolved =>
    let lunarMonth : Int :=
      if resolved.isLeap then -(resolved.month : Int) else (resolved.month : Int)
    o.fromYmd year lunarMonth lunar.day

/-- The `for (let i = 0; i < MAX; i++)` search loop: `scanFirst g i rem`
returns the first `some` of `g i, g (i+1), ...` over `rem` iterations. -/
def scanFirst (g : Nat → Option SolarDate) : Nat → Nat → Option SolarDate
  | _, 0 => none
  | i, rem + 1 =>
    match g i with
    | some d => some d
    | none => scanFirst g (i + 1) rem

/-- The body of the search loop of `findNextSolar`: the candidate of
iteration `i` (the conversion for year `today.year + i` when it exists
and falls on or after today). -/
def nextCandidate (o : ConvOracle) (today : SolarDate) (lunar : LunarDate)
    (strategy : RuntimeStrategy) (i : Nat) : Option SolarDate :=
  match toSolar o (today.year + (i : Int)) lunar strategy with
  | some solar => if dayLE today solar then some solar else none
  | none => none

/-- `findNextSolar` (src/main.ts:513-527): scan 80 years starting at
today's year, returning the first converted date on or after today. -/
def findNextSolar (o : ConvOracle) (today : SolarDate) (lunar : LunarDate)
    (strategy : RuntimeStrategy) : Option SolarDate :=
  scanFirst (nextCandidate o today lunar strategy) 0 80

/-- One alternative of the token regex of `escapeLiteralForMoment`
(src/main.ts:554-572): an already-bracketed run (`\[.*?]`), a fixed
literal token, or a character with a greedy optional second character
(`QO?`, `HH?`, `hh?`, `mm?`, `ss?`, `Z{1,2}`). -/
inductive TokenPat
  | brk
  | lit (t : List Char)
  | opt (c o : Char)

/-- The regex `.` (any character except a line terminator). -/
def isJsDot (c : Char) : Bool :=
  !(c == '\n' || c == '\r' || c == ' ' || c == ' ')

/-- The lazy tail `.*?]` of the bracket alternative: the shortest run of
non-terminator characters up to a closing bracket. -/
def bracketScan : List Char → Option (List Char × List Char)
  | [] => none
  | c :: rest =>
    if c = ']' then some ([']'], rest)
    else if isJsDot c then
      match bracketScan rest with
      | some (t, r) => some (c :: t, r)
      | none => none
    else none

/-- The alternative `\[.*?]`. -/
def bracketTok : List Char → Option (List Char × List Char)
  | '[' :: rest =>
    match bracketScan rest with
    | some (t, r) => some ('[' :: t, r)
    | none => none
  | _ => none

/-- A fixed literal alternative such as `YYYY` (all the literals of the
token regex are nonempty, so the empty case never fires). -/
def litTok (t s : List Char) : Option (List Char × List Char) :=
  match t with
  | [] => none
  | _ :: _ => if t.isPrefixOf s then some (t, s.drop t.length) else none

/-- An alternative of the shape `cO?` (greedy optional second
character). -/
def optTok (c o : Char) (s : List Char) : Option (List Char × List Char) :=
  match s with
  | [] => none
  | [c1] => if c1 = c then some ([c], []) else none
  | c1 :: c2 :: rest =>
    if c1 = c then
      if c2 = o then some ([c, o], rest) else some ([c], c2 :: rest)
    else none

/-- Try one alternative at the head of the input. -/
def tryPat (p : TokenPat) (s : List Char) : Option (List Char × List Char) :=
  match p with
  | .brk => bracketTok s
  | .lit t => litTok t s
  | .opt c o => optTok c o s

/-- The alternatives of the token regex of `escapeLiteralForMoment`, in
the source's order. -/
def momentTokens : List TokenPat :=
  [.brk, .lit "YYYY".data, .lit "YY".data, .opt 'Q' 'O',
   .lit "MMMM".data, .lit "MMM".data, .lit "MM".data, .lit "M".data,
   .lit "DDDD".data, .lit "DDD".data, .lit "DD".data, .lit "D".data,
   .lit "Do".data,
   .lit "dddd".data, .lit "ddd".data, .lit "dd".data, .lit "d".data,
   .lit "WWWW".data, .lit "WWW".data, .lit "WW".data, .lit "W".data,
   .opt 'H' 'H', .opt 'h' 'h', .opt 'm' 'm', .opt 's' 's',
   .lit "A".data, .lit "a".data, .lit "X".data, .lit "x".data,
   .opt 'Z' 'Z', .lit "SSS".data, .lit "SS".data, .lit "S".data]

/-- First alternative that matches, in pattern order (regex alternation
semantics at one position). -/
def firstMatch (ps : List TokenPat) (s : List Char) :
    Option (List Char × List Char) :=
  match ps with
  | [] => none
  | p :: rest =>
    match tryPat p s with
    | some r => some r
    | none => firstMatch rest s

/-- A token match at the head of the input, if any. -/
def matchTokenAt (s : List Char) : Option (List Char × List Char) :=
  firstMatch momentTokens s

/-- `text.replace(/]/g, "\\]")` of `wrapLiteral`. -/
def escBr : List Char → List Char
  | [] => []
  | c :: rest =>
    if c = ']' then '\\' :: ']' :: escBr rest else c :: escBr rest

/-- `wrapLiteral` (src/main.ts:574-577): wrap a nonempty literal run in
brackets, escaping closing brackets inside it. -/
def wrapLiteral (text : List Char) : List Char :=
  if text = [] then [] else '[' :: (escBr text ++ [']'])

/-- The scanning loop of `escapeLiteralForMoment`: `acc` is the pending
literal run in reverse.  Fuel only bounds the recursion; one unit per
input character suffices because every step consumes at least one
character, and the fuel-exhausted branch coincides with the all-literal
result it could only be reached by. -/
def escapeAuxF (fuel : Nat) (acc : List Char) (s : List Char) : List Char :=
  match fuel with
  | 0 => wrapLiteral (acc.reverse ++ s)
  | fuel' + 1 =>
    match matchTokenAt s with
    | some pr => wrapLiteral acc.reverse ++ pr.1 ++ escapeAuxF fuel' [] pr.2
    | none =>
      match s with
      | [] => wrapLiteral acc.reverse
      | c :: rest => escapeAuxF fuel' (c :: acc) rest

/-- `escapeLiteralForMoment` (src/main.ts:554-572). -/
def escapeLiteralForMoment (pattern : List Char) : List Char :=
  escapeAuxF pattern.length [] pattern

/-- Modelled from the spec: the bracket-run reader of the black-box
moment.js formatter, which is not part of this repository.  Following
§4.4, a bracket-delimited run is emitted verbatim and an escaped bracket
`\]` inside the run does not close it (it stands for a literal `]`). -/
def readBracket : List Char → List Char × List Char
  | [] => ([], [])
  | [c] => if c = ']' then ([], []) else ([c], [])
  | c1 :: c2 :: rest =>
    if c1 = ']' then ([], c2 :: rest)
    else if c1 = '\\' ∧ c2 = ']' then
      let p := readBracket rest
      (']' :: p.1, p.2)
    else
      let p := readBracket (c2 :: rest)
      (c1 :: p.1, p.2)

/-- Modelled from the spec: the black-box date formatter (moment.js,
external to this repository).  It "treats bracket-delimited substrings
literally, and substitutes recognized date-component tokens elsewhere":
bracket runs are emitted verbatim via `readBracket`, and each maximal
bracket-free segment goes through the substitution function `sub`, which
abstracts the date-component substitution for the date being formatted.
Fuel only bounds the recursion (one unit per character suffices; the
fuel-exhausted branch is unreachable from `momentFormat`). -/
def momentFormatF (sub : List Char → List Char) (fuel : Nat)
    (s : List Char) : List Char :=
  match fuel with
  | 0 => []
  | fuel' + 1 =>
    match s with
    | [] => []
    | c :: rest =>
      if c = '[' then
        (readBracket rest).1 ++ momentFormatF sub fuel' (readBracket rest).2
      else
        sub ((c :: rest).takeWhile (fun x => !(x == '['))) ++
          momentFormatF sub fuel' ((c :: rest).dropWhile (fun x => !(x == '[')))

/-- Modelled from the spec: the black-box formatter applied to a whole
pattern. -/
def momentFormat (sub : List Char → List Char) (pattern : List Char) :
    List Char :=
  momentFormatF sub pattern.length pattern

/-- An identity substitution, usable as one concrete instance of the
black-box date-component substitution. -/
def subId : List Char → List Char := fun s => s

/-- Read an own property of a JS object modelled as an assoc list in
insertion order (`result[key]`, `data[key]` for ordinary keys). -/
def recordGet {α : Type} (m : List (List Char × α)) (k : List Char) :
    Option α :=
  (m.find? (fun p => p.1 == k)).map (fun p => p.2)

/-- The JS assignment `obj[key] = value` on a plain object holding
non-object values, modelled on an assoc list of own properties: an
existing own key keeps its position and gets the new value; otherwise,
for the key "__proto__" the assignment reaches the inherited accessor
setter of `Object.prototype`, which for a non-object value (all values
here are strings) is a silent no-op creating no own property; any other
new key is appended (inherited data properties such as "constructor"
are simply shadowed). -/
def recordSet {α : Type} (m : List (List Char × α)) (k : List Char)
    (v : α) : List (List Char × α) :=
  if m.any (fun p => p.1 == k) then
    m.map (fun p => if p.1 = k then (k, v) else p)
  else if k = "__proto__".data then m
  else m ++ [(k, v)]

/-- `type OutputMode = "single" | "range"`. -/
inductive OutputMode
  | single
  | range
deriving DecidableEq

/-- The conversion-relevant fields of `LunarSolarSettings`
(src/main.ts:27-38); `targets` only filters which files are visited and
plays no part in per-document processing. -/
structure LunarSolarSettings where
  sourceKey : List Char
  outputMode : OutputMode
  outputKeySingle : List Char
  outputDateFormat : List Char
  outputKeyPattern : List Char
  rangePast : Nat
  rangeFuture : Nat
  defaultLeapStrategy : LeapStrategy
  leapStrategyKey : List Char

/-- The years visited by the `for` loop of `buildRangeOutputs`:
`centerYear - rangePast` up to `centerYear + rangeFuture` inclusive, in
ascending order. -/
def windowYears (centerYear : Int) (past future : Nat) : List Int :=
  (List.range (past + future + 1)).map
    (fun i : Nat => centerYear - (past : Int) + (i : Int))

/-- `buildRangeOutputs` (src/main.ts:529-548), with the date formatter
`fmt pattern date` abstract (black box).  The result object is an assoc
list in insertion order with `recordSet` write semantics. -/
def buildRangeOutputs (o : ConvOracle) (fmt : List Char → SolarDate → List Char)
    (lunar : LunarDate) (strategy : RuntimeStrategy)
    (settings : LunarSolarSettings) (centerYear : Int) :
    List (List Char × List Char) :=
  let keyPattern := escapeLiteralForMoment settings.outputKeyPattern
  (windowYears centerYear settings.rangePast settings.rangeFuture).foldl
    (fun acc y =>
      match toSolar o y lunar strategy with
      | none => acc
      | some solar =>
        recordSet acc (fmt keyPattern solar)
          (fmt settings.outputDateFormat solar))
    []

/-- A document's metadata: `none` when it has no frontmatter block.  The
YAML codec is the spec's trusted round-trippable mapping, so the block is
its decoded assoc list. -/
structure Doc where
  frontmatter : Option (List (List Char × JsVal))
deriving DecidableEq

/-- `ProcessResult.status` together with its reason. -/
inductive Outcome
  | updated
  | unchanged
  | skipped (reason : String)
  | failed (reason : String)
deriving DecidableEq

/-- Read a metadata field of a document. -/
def fmGet (doc : Doc) (k : List Char) : Option JsVal :=
  match doc.frontmatter with
  | some m => recordGet m k
  | none => none

/-- One update of the loop of `writeFrontmatter` (src/main.ts:673-679):
write the entry when the stored value differs from the computed one,
recording the change. -/
def applyStep (st : List (List Char × JsVal) × Bool)
    (kv : List Char × List Char) : List (List Char × JsVal) × Bool :=
  if recordGet st.1 kv.1 = some (.vstr kv.2) then st
  else (recordSet st.1 kv.1 (.vstr kv.2), true)

/-- The update loop of `writeFrontmatter` (src/main.ts:673-679): write
each entry whose stored value differs from the computed one, tracking
whether anything changed. -/
def applyUpdates (data : List (List Char × JsVal))
    (updates : List (List Char × List Char)) :
    List (List Char × JsVal) × Bool :=
  updates.foldl applyStep (data, false)

/-- `writeFrontmatter` (src/main.ts:657-687): decode the block, apply the
updates, persist only when something changed (returning whether it
did). -/
def writeFrontmatter (doc : Doc) (updates : List (List Char × List Char)) :
    Bool × Doc :=
  let data :=
    match doc.frontmatter with
    | some m => m
    | none => []
  let st := applyUpdates data updates
  if st.2 then (true, { frontmatter := some st.1 }) else (false, doc)

/-- `processFile` (src/main.ts:600-655) as a pure transformation of one
document given the oracles, the formatter, today's date and the settings.
The single-mode `updates[settings.outputKeySingle] = ...` is a JS
assignment on the fresh object literal `updates`, hence `recordSet` on
the empty record.  The `failed "exception"` outcome models the catch-all
for host I/O failures, which are outside this embedding, so it is never
produced here. -/
def processFile (o : ConvOracle) (fmt : List Char → SolarDate → List Char)
    (today : SolarDate) (settings : LunarSolarSettings) (doc : Doc) :
    Outcome × Doc :=
  match doc.frontmatter with
  | none => (.skipped "no-frontmatter", doc)
  | some fm =>
    match recordGet fm settings.sourceKey with
    | some (.vstr raw) =>
      match parseLunar raw with
      | none => (.skipped "invalid-format", doc)
      | some lunar =>
        let leapStrategy :=
          parseLeapStrategy (recordGet fm settings.leapStrategyKey)
            settings.defaultLeapStrategy
        match settings.outputMode with
        | .single =>
          match findNextSolar o today lunar leapStrategy with
          | none => (.skipped "no-solar", doc)
          | some solar =>
            let updates :=
              recordSet [] settings.outputKeySingle
                (fmt settings.outputDateFormat solar)
            let wr := writeFrontmatter doc updates
            (if wr.1 then .updated else .unchanged, wr.2)
        | .range =>
          let updates := buildRangeOutputs o fmt lunar leapStrategy settings today.year
          if updates = [] then (.skipped "no-solar", doc)
          else
            let wr := writeFrontmatter doc updates
            (if wr.1 then .updated else .unchanged, wr.2)
    | _ => (.skipped "no-source-key", doc)

/-- A concrete oracle for witnesses: every lunar date of target year `y`
converts to the solar date `(y, 6, 15)` and no year has a leap month. -/
def demoOracle : ConvOracle :=
  ⟨fun y _ _ => some ⟨y, 6, 15⟩, fun _ => none⟩

/-- A concrete oracle for witnesses whose every year has leap month 2. -/
def leapOracle : ConvOracle :=
  ⟨fun y _ _ => some ⟨y, 6, 15⟩, fun _ => some 2⟩

/-- A concrete constant formatter for witnesses. -/
def demoFmt : List Char → SolarDate → List Char := fun _ _ => "X".data

/-- Concrete settings for witnesses (the plugin defaults, single
mode). -/
def demoSettings : LunarSolarSettings :=
  { sourceKey := "lunar-birthday".data
    outputMode := .single
    outputKeySingle := "birthday".data
    outputDateFormat := "YYYY-MM-DD".data
    outputKeyPattern := "[birthday]-YYYY".data
    rangePast := 1
    rangeFuture := 1
    defaultLeapStrategy := .forward
    leapStrategyKey := "闰月处理模式".data }

/-- A concrete document for witnesses, holding one lunar date. -/
def demoDoc : Doc :=
  ⟨some [("lunar-birthday".data, .vstr "2023-05-10".data)]⟩

/-- The document `demoDoc` after one processing run with `demoOracle`,
`demoFmt` and `demoSettings`. -/
def demoDoc1 : Doc :=
  ⟨some [("lunar-birthday".data, .vstr "2023-05-10".data),
    ("birthday".data, .vstr "X".data)]⟩

/-- A concrete formatter instance: the spec-modelled moment formatter
with the identity token substitution, under which a bracket run formats
to its literal content. -/
def protoFmt : List Char → SolarDate → List Char :=
  fun pattern _ => momentFormat subId pattern

/-- Range-mode settings whose output-key pattern is the escaped literal
text "__proto__". -/
def protoSettings : LunarSolarSettings :=
  { sourceKey := "lunar-birthday".data
    outputMode := .range
    outputKeySingle := "birthday".data
    outputDateFormat := "YYYY-MM-DD".data
    outputKeyPattern := "[__proto__]".data
    rangePast := 1
    rangeFuture := 1
    defaultLeapStrategy := .forward
    leapStrategyKey := "闰月处理模式".data }

/-- The keys of a JS object modelled as an assoc list. -/
def keysOf {α : Type} (m : List (List Char × α)) : List (List Char) :=
  m.map Prod.fst

/-- Left-biased choice on options. -/
def orO {α : Type} (a b : Option α) : Option α :=
  match a with
  | some x => some x
  | none => b

/-- The key/value entry a year contributes to the range output of
`buildRangeOutputs`, if its conversion succeeds. -/
def rangeEntry (o : ConvOracle) (fmt : List Char → SolarDate → List Char)
    (lunar : LunarDate) (strategy : RuntimeStrategy)
    (settings : LunarSolarSettings) (y : Int) :
    Option (List Char × List Char) :=
  match toSolar o y lunar strategy with
  | none => none
  | some solar =>
    some (fmt (escapeLiteralForMoment settings.outputKeyPattern) solar,
      fmt settings.outputDateFormat solar)

/-- One iteration of the loop of `buildRangeOutputs`, abstracted over the
entry function: skip a failed year, otherwise write its entry. -/
def entryStep (e : Int → Option (List Char × List Char))
    (acc : List (List Char × List Char)) (y : Int) :
    List (List Char × List Char) :=
  match e y with
  | none => acc
  | some kv => recordSet acc kv.1 kv.2

/-- The value the LAST year of `ys` producing key `k` contributes
(last-write-wins reference function). -/
def lastVal (e : Int → Option (List Char × List Char)) :
    List Int → List Char → Option (List Char)
  | [], _ => none
  | y :: ys, k =>
    match lastVal e ys k with
    | some v => some v
    | none =>
      match e y with
      | some kv => if kv.1 = k then some kv.2 else none
      | none => none

/-- C5: for every non-leap lunar date, every target year and every
strategy, leap resolution returns the same month with `isLeap = false`
unconditionally; the strategy plays no part. -/
theorem resolveLunarMonth_nonleap_spec (o : ConvOracle) (year : Int)
    (lunar : LunarDate) (strategy : RuntimeStrategy)
    (h : lunar.isLeap = false) :
    resolveLunarMonth o year lunar strategy = some ⟨lunar.month, false⟩ := by
  simp [resolveLunarMonth, h]

/-- C5 witness: the theorem applied at a concrete non-leap date. -/
theorem resolveLunarMonth_nonleap_spec_witness :
    resolveLunarMonth demoOracle 2025 ⟨2023, 5, 10, false⟩ (.strat .strict) =
      some ⟨5, false⟩ :=
  resolveLunarMonth_nonleap_spec demoOracle 2025 ⟨2023, 5, 10, false⟩
    (.strat .strict) rfl

/-- C4: for every leap lunar date under the Strict strategy, resolution
returns no result exactly when the target year lacks the matching leap
month, and returns the same month with `isLeap = true` when it has
it. -/
theorem resolveLunarMonth_strict_spec (o : ConvOracle) (year : Int)
    (lunar : LunarDate) (h : lunar.isLeap = true) :
    (resolveLunarMonth o year lunar (.strat .strict) = none ↔
      yearHasLeapMonth o year lunar.month = false)
    ∧ (yearHasLeapMonth o year lunar.month = true →
      resolveLunarMonth o year lunar (.strat .strict) =
        some ⟨lunar.month, true⟩) := by
  cases hy : yearHasLeapMonth o year lunar.month <;>
    simp [resolveLunarMonth, h, hy]

/-- C4 witness: the theorem applied at a concrete leap date and an
oracle whose target year has the matching leap month. -/
theorem resolveLunarMonth_strict_spec_witness :
    resolveLunarMonth leapOracle 2024 ⟨2023, 2, 10, true⟩ (.strat .strict) =
      some ⟨2, true⟩ :=
  (resolveLunarMonth_strict_spec leapOracle 2024 ⟨2023, 2, 10, true⟩ rfl).2
    (by decide)

/-- C3: for every leap lunar date under the Backward strategy, a year
with the matching leap month resolves to the same month as leap, and a
year without it resolves to `min (month + 1) 12` as non-leap; in
particular month 12 clamps to 12. -/
theorem resolveLunarMonth_backward_spec (o : ConvOracle) (year : Int)
    (lunar : LunarDate) (h : lunar.isLeap = true)
    (hm : lunar.month ≤ 12) :
    (yearHasLeapMonth o year lunar.month = true →
      resolveLunarMonth o year lunar (.strat .backward) =
        some ⟨lunar.month, true⟩)
    ∧ (yearHasLeapMonth o year lunar.month = false →
      resolveLunarMonth o year lunar (.strat .backward) =
        some ⟨min (lunar.month + 1) 12, false⟩) := by
  constructor <;> intro hy
  · simp [resolveLunarMonth, h, hy]
  · simp [resolveLunarMonth, h, hy]
    split <;> omega

/-- C3 witness: the theorem applied at leap month 12 against an oracle
with no leap month: the result clamps to month 12. -/
theorem resolveLunarMonth_backward_spec_witness :
    resolveLunarMonth demoOracle 2025 ⟨2023, 12, 30, true⟩ (.strat .backward) =
      some ⟨min (12 + 1) 12, false⟩ :=
  (resolveLunarMonth_backward_spec demoOracle 2025 ⟨2023, 12, 30, true⟩ rfl
    (by decide)).2 (by decide)

/-- C8 (code bug): the override lookup is not total over the three
strategies.  For the input string "constructor" the JS property read
reaches the inherited, truthy `Object.prototype.constructor`, which the
`if (mapped)` test accepts, so the function returns that member instead
of the configured fallback. -/
theorem parseLeapStrategy_proto_leak :
    parseLeapStrategy (some (.vstr "constructor".data)) .forward =
      .protoMember "constructor".data
    ∧ parseLeapStrategy (some (.vstr "constructor".data)) .forward ≠
      .strat .forward := by
  decide

theorem isAsciiDigit_toNat {c : Char} (h : isAsciiDigit c = true) :
    c.toNat - '0'.toNat ≤ 9 := by
  simp only [isAsciiDigit, Bool.and_eq_true, decide_eq_true_eq] at h
  obtain ⟨h1, h2⟩ := h
  have h1' : 48 ≤ c.toNat := h1
  have h2' : c.toNat ≤ 57 := h2
  have h0 : '0'.toNat = 48 := rfl
  omega

theorem digits_foldl_lt (ds : List Char) :
    ∀ a : Nat, (∀ c ∈ ds, isAsciiDigit c = true) →
    ds.foldl (fun n c => n * 10 + (c.toNat - '0'.toNat)) a <
      (a + 1) * 10 ^ ds.length := by
  induction ds with
  | nil => intro a _; simp
  | cons c ds ih =>
    intro a h
    have hc : c.toNat - '0'.toNat ≤ 9 := isAsciiDigit_toNat (h c (by simp))
    have hstep := ih (a * 10 + (c.toNat - '0'.toNat))
      (fun x hx => h x (by simp [hx]))
    calc (c :: ds).foldl (fun n c => n * 10 + (c.toNat - '0'.toNat)) a
        = ds.foldl (fun n c => n * 10 + (c.toNat - '0'.toNat))
            (a * 10 + (c.toNat - '0'.toNat)) := rfl
      _ < (a * 10 + (c.toNat - '0'.toNat) + 1) * 10 ^ ds.length := hstep
      _ ≤ ((a + 1) * 10) * 10 ^ ds.length :=
          Nat.mul_le_mul_right _ (by omega)
      _ = (a + 1) * 10 ^ (c :: ds).length := by
          simp [List.length_cons, pow_succ]; ring

theorem digitsToNat_lt {ds : List Char}
    (h : ∀ c ∈ ds, isAsciiDigit c = true) :
    digitsToNat ds < 10 ^ ds.length := by
  have := digits_foldl_lt ds 0 h
  simpa [digitsToNat] using this

theorem takeDigits_lt {n : Nat} {s : List Char} {v : Nat} {r : List Char}
    (h : takeDigits n s = some (v, r)) : v < 10 ^ n := by
  dsimp only [takeDigits] at h
  split at h
  · rename_i hc
    obtain ⟨hlen, hdig⟩ := hc
    rw [Option.some.injEq, Prod.mk.injEq] at h
    obtain ⟨hv, _⟩ := h
    rw [← hv]
    have hb := @digitsToNat_lt (s.take n)
      (by simpa [List.all_eq_true] using hdig)
    rwa [hlen] at hb
  · exact absurd h (by simp)

/-- C7 (amended): every accepted parse satisfies only the digit-width
bounds of the notation: year below 10000 and month and day below 100;
the parser itself validates no month or day range (a month such as 13 or
a day such as 40 is accepted and left for the conversion primitive to
reject). -/
theorem parseLunar_digitBounds (raw : List Char) (d : LunarDate)
    (h : parseLunar raw = some d) :
    d.year ≤ 9999 ∧ d.month ≤ 99 ∧ d.day ≤ 99 := by
  dsimp only [parseLunar] at h
  split at h
  · exact absurd h (by simp)
  rename_i year s2 h4
  split at h
  rename_i s3
  · split at h
    · exact absurd h (by simp)
    rename_i month s5 h2m
    split at h
    rename_i s6
    · split at h
      · exact absurd h (by simp)
      rename_i day s7 h2d
      split at h
      · rw [Option.some.injEq] at h
        subst h
        refine ⟨?_, ?_, ?_⟩
        · have := takeDigits_lt h4; simpa using Nat.lt_succ_iff.mp this
        · have := takeDigits_lt h2m; simpa using Nat.lt_succ_iff.mp this
        · have := takeDigits_lt h2d; simpa using Nat.lt_succ_iff.mp this
      · exact absurd h (by simp)
    · exact absurd h (by simp)
  · exact absurd h (by simp)

/-- C7 witness: the amended theorem applied at an accepted concrete
input. -/
theorem parseLunar_digitBounds_witness :
    (2023 : Nat) ≤ 9999 ∧ (5 : Nat) ≤ 99 ∧ (10 : Nat) ≤ 99 :=
  parseLunar_digitBounds "2023-05-10".data ⟨2023, 5, 10, false⟩ (by decide)

/-- C7 (counterexample): the parser accepts "2023-13-40", whose month 13
exceeds 12 and whose day 40 exceeds 30, so an accepted parse does not
always satisfy the data-model ranges month 1..12 and day 1..30. -/
theorem parseLunar_range_cex :
    parseLunar "2023-13-40".data = some ⟨2023, 13, 40, false⟩
    ∧ ¬((1 ≤ 13 ∧ 13 ≤ 12) ∧ (1 ≤ 40 ∧ 40 ≤ 30)) := by
  decide

theorem dropWhile_all_append (w s : List Char)
    (hw : ∀ c ∈ w, isJsWhitespace c = true) :
    (w ++ s).dropWhile isJsWhitespace = s.dropWhile isJsWhitespace :=
  List.dropWhile_append_of_pos hw

theorem dropWhile_eq_self_head {s : List Char} {c : Char} {s' : List Char}
    (hs : s = c :: s') (h : s.dropWhile isJsWhitespace = s) :
    isJsWhitespace c = false := by
  subst hs
  by_contra hc
  rw [Bool.not_eq_false] at hc
  rw [List.dropWhile_cons, if_pos hc] at h
  have hle : (s'.dropWhile isJsWhitespace).length ≤ s'.length :=
    (List.dropWhile_suffix isJsWhitespace).length_le
  have hlen := congrArg List.length h
  rw [List.length_cons] at hlen
  omega

/-- `trim` of a recognized string padded with whitespace gives back the
string, provided it neither starts nor ends with whitespace. -/
theorem jsTrim_pad (w1 w2 s : List Char) (hne : s ≠ [])
    (hw1 : ∀ c ∈ w1, isJsWhitespace c = true)
    (hw2 : ∀ c ∈ w2, isJsWhitespace c = true)
    (h1 : s.dropWhile isJsWhitespace = s)
    (h2 : s.reverse.dropWhile isJsWhitespace = s.reverse) :
    jsTrim (w1 ++ s ++ w2) = s := by
  obtain ⟨c, s', rfl⟩ : ∃ c s', s = c :: s' := by
    cases s with
    | nil => exact absurd rfl hne
    | cons c s' => exact ⟨c, s', rfl⟩
  have hc : isJsWhitespace c = false := dropWhile_eq_self_head rfl h1
  unfold jsTrim
  rw [List.append_assoc, dropWhile_all_append _ _ hw1]
  rw [show (c :: s') ++ w2 = c :: (s' ++ w2) from rfl]
  rw [List.dropWhile_cons, if_neg (by simp [hc])]
  rw [show c :: (s' ++ w2) = (c :: s') ++ w2 from rfl]
  rw [List.reverse_append]
  rw [dropWhile_all_append _ _ (fun x hx => hw2 x (by simpa using hx))]
  rw [h2, List.reverse_reverse]

/-- C10: the override lookup trims surrounding whitespace before
matching: any of the six recognized strings surrounded by whitespace
maps to its designated variant, not the fallback. -/
theorem parseLeapStrategy_trim_spec (s : List Char) (v : LeapStrategy)
    (w1 w2 : List Char) (fallback : LeapStrategy)
    (hmem : (s, v) ∈ recognizedStrategyStrings)
    (hw1 : ∀ c ∈ w1, isJsWhitespace c = true)
    (hw2 : ∀ c ∈ w2, isJsWhitespace c = true) :
    parseLeapStrategy (some (.vstr (w1 ++ s ++ w2))) fallback = .strat v := by
  have hprops : ∀ p ∈ recognizedStrategyStrings,
      p.1 ≠ [] ∧ p.1.dropWhile isJsWhitespace = p.1 ∧
        p.1.reverse.dropWhile isJsWhitespace = p.1.reverse ∧
        leapStrategyLookup p.1 = some (.strat p.2) := by decide
  obtain ⟨hne, h1, h2, hlook⟩ := hprops (s, v) hmem
  have htrim := jsTrim_pad w1 w2 s hne hw1 hw2 h1 h2
  simp only [parseLeapStrategy, htrim, hlook]

/-- C10 witness: the theorem applied at "strict" padded with a space and
a tab. -/
theorem parseLeapStrategy_trim_spec_witness :
    parseLeapStrategy (some (.vstr (" ".data ++ "strict".data ++ "\t".data)))
      .backward = .strat .strict :=
  parseLeapStrategy_trim_spec "strict".data .strict " ".data "\t".data
    .backward (by decide) (by decide) (by decide)

theorem escapeAuxF_noToken (s : List Char) :
    ∀ (fuel : Nat) (acc : List Char),
    (∀ t ∈ s.tails, matchTokenAt t = none) →
    escapeAuxF fuel acc s = wrapLiteral (acc.reverse ++ s) := by
  induction s with
  | nil =>
    intro fuel acc _
    cases fuel with
    | zero => rfl
    | succ n => rw [List.append_nil]; rfl
  | cons c rest ih =>
    intro fuel acc h
    have hc : matchTokenAt (c :: rest) = none :=
      h _ (by rw [List.tails_cons]; exact List.mem_cons_self _ _)
    cases fuel with
    | zero => rfl
    | succ n =>
      have hrec := ih n (c :: acc)
        (fun t ht => h t (by rw [List.tails_cons]; exact List.mem_cons_of_mem _ ht))
      simp only [escapeAuxF, hc]
      rw [hrec]
      simp

theorem escapeLiteral_noToken (pattern : List Char)
    (h : ∀ t ∈ pattern.tails, matchTokenAt t = none) :
    escapeLiteralForMoment pattern = wrapLiteral pattern := by
  have hz := escapeAuxF_noToken pattern pattern.length [] h
  simpa [escapeLiteralForMoment] using hz

theorem readBracket_escBr (p : List Char) :
    ∀ r : List Char, '\\' ∉ p →
    readBracket (escBr p ++ (']' :: r)) = (p, r) := by
  induction p with
  | nil =>
    intro r _
    cases r with
    | nil => rfl
    | cons d t => rfl
  | cons c p' ih =>
    intro r hp
    have hc : c ≠ '\\' := fun hcc => hp (by simp [hcc])
    have hp' : '\\' ∉ p' := fun hm => hp (by simp [hm])
    by_cases hcb : c = ']'
    · subst hcb
      show readBracket ('\\' :: ']' :: (escBr p' ++ (']' :: r))) = (']' :: p', r)
      simp only [readBracket]
      rw [ih r hp']
      simp
    · rw [show escBr (c :: p') = c :: escBr p' from by simp [escBr, hcb]]
      cases hq : escBr p' ++ (']' :: r) with
      | nil => simp at hq
      | cons d t =>
        rw [List.cons_append, hq]
        simp only [readBracket]
        rw [if_neg hcb, if_neg (by simp [hc])]
        rw [← hq, ih r hp']

theorem momentFormatF_nil (sub : List Char → List Char) (fuel : Nat) :
    momentFormatF sub fuel [] = [] := by
  cases fuel <;> rfl

theorem momentFormat_wrapLiteral (sub : List Char → List Char)
    (p : List Char) (hp : '\\' ∉ p) :
    momentFormat sub (wrapLiteral p) = p := by
  by_cases hne : p = []
  · subst hne; rfl
  · rw [wrapLiteral, if_neg hne]
    simp only [momentFormat, List.length_cons, momentFormatF]
    rw [if_pos trivial]
    have hrb : readBracket (escBr p ++ (']' :: ([] : List Char))) = (p, []) :=
      readBracket_escBr p [] hp
    rw [show escBr p ++ [']'] = escBr p ++ (']' :: ([] : List Char)) from rfl,
      hrb, momentFormatF_nil, List.append_nil]

/-- C6 (amended): a pattern of pure literal text (no position of it
matches a recognized token) that contains no backslash character formats
back to itself, for every date (every token substitution): the escaper
wraps it whole in brackets with closing brackets escaped, and the
formatter emits the bracket run verbatim. -/
theorem escapeLiteral_roundTrip (pattern : List Char)
    (sub : List Char → List Char)
    (hTok : ∀ t ∈ pattern.tails, matchTokenAt t = none)
    (hBs : '\\' ∉ pattern) :
    momentFormat sub (escapeLiteralForMoment pattern) = pattern := by
  rw [escapeLiteral_noToken pattern hTok]
  exact momentFormat_wrapLiteral sub pattern hBs

/-- C6 witness: the amended theorem applied at a concrete token-free,
backslash-free literal pattern. -/
theorem escapeLiteral_roundTrip_witness :
    momentFormat subId (escapeLiteralForMoment "生日-)(".data) = "生日-)(".data :=
  escapeLiteral_roundTrip "生日-)(".data subId (by decide) (by decide)

/-- C6 (counterexample): the one-character pattern `\` contains no
recognized token, yet the escaped form `[\]` reads as an escaped closing
bracket under the spec's own escaping convention, so formatting returns
`]` instead of `\`: the round trip fails for literal patterns containing
a backslash (the escaper escapes `]` but not `\`). -/
theorem escapeLiteral_roundTrip_cex :
    ("\\".data).tails.all (fun t => (matchTokenAt t).isNone) = true
    ∧ momentFormat subId (escapeLiteralForMoment "\\".data) ≠ "\\".data := by
  decide

theorem dayLE_refl (a : SolarDate) : dayLE a a = true := by
  simp [dayLE]

theorem scanFirst_eq_some (g : Nat → Option SolarDate) :
    ∀ (rem i : Nat) (d : SolarDate), scanFirst g i rem = some d →
    ∃ k, k < rem ∧ g (i + k) = some d ∧ ∀ j, j < k → g (i + j) = none := by
  intro rem
  induction rem with
  | zero => intro i d h; exact absurd h (by simp [scanFirst])
  | succ n ih =>
    intro i d h
    rw [scanFirst] at h
    cases hg : g i with
    | some d0 =>
      rw [hg] at h
      refine ⟨0, Nat.succ_pos n, ?_, fun j hj => absurd hj (Nat.not_lt_zero j)⟩
      rw [Nat.add_zero, hg]
      exact h
    | none =>
      rw [hg] at h
      obtain ⟨k, hk, hgk, hbefore⟩ := ih (i + 1) d h
      refine ⟨k + 1, by omega, ?_, ?_⟩
      · rw [show i + (k + 1) = i + 1 + k from by omega]
        exact hgk
      · intro j hj
        cases j with
        | zero => rw [Nat.add_zero]; exact hg
        | succ j' =>
          rw [show i + (j' + 1) = i + 1 + j' from by omega]
          exact hbefore j' (by omega)

theorem scanFirst_eq_none (g : Nat → Option SolarDate) :
    ∀ (rem i : Nat), scanFirst g i rem = none ↔
      ∀ k, k < rem → g (i + k) = none := by
  intro rem
  induction rem with
  | zero => intro i; simp [scanFirst]
  | succ n ih =>
    intro i
    rw [scanFirst]
    cases hg : g i with
    | some d0 =>
      simp only [hg]
      constructor
      · intro h; exact absurd h (by simp)
      · intro h
        have h0 := h 0 (Nat.succ_pos n)
        rw [Nat.add_zero] at h0
        rw [h0] at hg
        exact absurd hg (by simp)
    | none =>
      simp only [hg]
      constructor
      · intro h k hk
        cases k with
        | zero => rw [Nat.add_zero]; exact hg
        | succ k' =>
          rw [show i + (k' + 1) = i + 1 + k' from by omega]
          exact ((ih (i + 1)).mp h) k' (by omega)
      · intro h
        rw [ih (i + 1)]
        intro k hk
        rw [show i + 1 + k = i + (k + 1) from by omega]
        exact h (k + 1) (by omega)

/-- C1: under the spec's assumption that the black-box converter is
correct (here: the converted dates are monotone across target years),
`findNextSolar` never returns a date before today; a returned date comes
from one of the 80 candidate years starting at today's year and is the
earliest on-or-after-today date among all of them; and it returns `none`
exactly when no candidate year yields an on-or-after-today date. -/
theorem findNextSolar_spec (o : ConvOracle) (today : SolarDate)
    (lunar : LunarDate) (strategy : RuntimeStrategy)
    (hmono : ∀ (i j : Nat) (di dj : SolarDate), i < j → j < 80 →
      toSolar o (today.year + (i : Int)) lunar strategy = some di →
      toSolar o (today.year + (j : Int)) lunar strategy = some dj →
      dayLE di dj = true) :
    (∀ d, findNextSolar o today lunar strategy = some d →
      dayLE today d = true
      ∧ (∃ i : Nat, i < 80 ∧
          toSolar o (today.year + (i : Int)) lunar strategy = some d)
      ∧ (∀ (j : Nat) (d' : SolarDate), j < 80 →
          toSolar o (today.year + (j : Int)) lunar strategy = some d' →
          dayLE today d' = true → dayLE d d' = true))
    ∧ (findNextSolar o today lunar strategy = none ↔
      ∀ (j : Nat) (d' : SolarDate), j < 80 →
        toSolar o (today.year + (j : Int)) lunar strategy = some d' →
        dayLE today d' = false) := by
  constructor
  · intro d hd
    obtain ⟨k, hk80, hgk, hbefore⟩ :=
      scanFirst_eq_some _ 80 0 d hd
    rw [Nat.zero_add] at hgk
    rw [nextCandidate] at hgk
    cases ht : toSolar o (today.year + (k : Int)) lunar strategy with
    | none => simp [ht] at hgk
    | some s =>
      simp only [ht] at hgk
      by_cases hle : dayLE today s = true
      · rw [if_pos hle] at hgk
        rw [Option.some.injEq] at hgk
        subst hgk
        refine ⟨hle, ⟨k, hk80, ht⟩, ?_⟩
        intro j d' hj80 htj hled'
        rcases lt_trichotomy j k with hjk | hjk | hjk
        · have hnone := hbefore j hjk
          rw [Nat.zero_add, nextCandidate] at hnone
          simp [htj, hled'] at hnone
        · subst hjk
          rw [htj, Option.some.injEq] at ht
          subst ht
          exact dayLE_refl d'
        · exact hmono k j s d' hjk hj80 ht htj
      · rw [if_neg hle] at hgk
        exact absurd hgk (by simp)
  · rw [findNextSolar, scanFirst_eq_none]
    constructor
    · intro h j d' hj80 htj
      have hj := h j hj80
      rw [Nat.zero_add, nextCandidate] at hj
      by_contra hled
      rw [Bool.not_eq_false] at hled
      simp [htj, hled] at hj
    · intro h k hk80
      rw [Nat.zero_add, nextCandidate]
      cases ht : toSolar o (today.year + (k : Int)) lunar strategy with
      | none => rfl
      | some s => simp [h k s hk80 ht]

/-- C1 witness: the theorem applied at a concrete monotone oracle: the
returned date is on or after today. -/
theorem findNextSolar_spec_witness :
    dayLE ⟨2025, 3, 1⟩ ⟨2025, 6, 15⟩ = true :=
  ((findNextSolar_spec demoOracle ⟨2025, 3, 1⟩ ⟨2023, 5, 10, false⟩
      (.strat .forward)
      (by
        intro i j di dj hij hj80 hdi hdj
        simp [toSolar, resolveLunarMonth, demoOracle] at hdi hdj
        subst hdi
        subst hdj
        simp only [dayLE]
        rw [if_neg (by
          show ¬((2025 : Int) + (i : Int) = (2025 : Int) + (j : Int))
          omega)]
        rw [decide_eq_true_eq]
        omega)).1
    ⟨2025, 6, 15⟩ (by decide)).1

theorem recordGet_cons {α : Type} (p : List Char × α)
    (m : List (List Char × α)) (k : List Char) :
    recordGet (p :: m) k = if p.1 = k then some p.2 else recordGet m k := by
  rw [recordGet, List.find?_cons]
  by_cases h : p.1 = k
  · have hb : (p.1 == k) = true := by simpa using h
    rw [hb, if_pos h]
    rfl
  · have hb : (p.1 == k) = false := by simpa using h
    rw [hb, if_neg h]
    rfl

theorem orO_none_right {α : Type} (a : Option α) : orO a none = a := by
  cases a <;> rfl

theorem recordGet_map_upd_self {α : Type} (k : List Char) (v : α) :
    ∀ m : List (List Char × α),
    recordGet (m.map (fun p => if p.1 = k then (k, v) else p)) k =
      if m.any (fun p => p.1 == k) then some v else none := by
  intro m
  induction m with
  | nil => rfl
  | cons p m ih =>
    rw [List.map_cons, recordGet_cons, List.any_cons]
    by_cases hp : p.1 = k
    · simp only [if_pos hp]
      rw [if_pos trivial]
      have hb : (p.1 == k) = true := by simpa using hp
      rw [hb, Bool.true_or, if_pos rfl]
    · simp only [if_neg hp]
      rw [ih]
      have hb : (p.1 == k) = false := by simpa using hp
      rw [hb, Bool.false_or]

theorem recordGet_map_upd_other {α : Type} (k k' : List Char) (v : α)
    (h : k' ≠ k) :
    ∀ m : List (List Char × α),
    recordGet (m.map (fun p => if p.1 = k then (k, v) else p)) k' =
      recordGet m k' := by
  intro m
  induction m with
  | nil => rfl
  | cons p m ih =>
    rw [List.map_cons, recordGet_cons, recordGet_cons]
    by_cases hp : p.1 = k
    · rw [if_pos hp]
      rw [if_neg (by simp; exact fun hh => h hh.symm), if_neg (by rw [hp]; exact fun hh => h hh.symm)]
      exact ih
    · rw [if_neg hp]
      by_cases hk' : p.1 = k'
      · rw [if_pos hk', if_pos hk']
      · rw [if_neg hk', if_neg hk']
        exact ih

theorem recordGet_append_single {α : Type} (k k' : List Char) (v : α) :
    ∀ m : List (List Char × α),
    recordGet (m ++ [(k, v)]) k' =
      orO (recordGet m k') (if k = k' then some v else none) := by
  intro m
  induction m with
  | nil =>
    rw [List.nil_append, recordGet_cons]
    rfl
  | cons p m ih =>
    rw [List.cons_append, recordGet_cons, recordGet_cons]
    by_cases hp : p.1 = k'
    · rw [if_pos hp, if_pos hp]
      rfl
    · rw [if_neg hp, if_neg hp]
      exact ih

theorem recordGet_eq_none_of_not_any {α : Type} {m : List (List Char × α)}
    {k : List Char} (h : m.any (fun p => p.1 == k) = false) :
    recordGet m k = none := by
  rw [recordGet]
  rw [List.find?_eq_none.mpr]
  · rfl
  · intro p hp
    rw [List.any_eq_false] at h
    exact fun hb => (h p hp) hb

theorem recordGet_recordSet_self {α : Type} (m : List (List Char × α))
    (k : List Char) (v : α) (hk : k ≠ "__proto__".data) :
    recordGet (recordSet m k v) k = some v := by
  rw [recordSet]
  by_cases hany : m.any (fun p => p.1 == k) = true
  · rw [if_pos hany, recordGet_map_upd_self, if_pos hany]
  · rw [if_neg hany, if_neg hk, recordGet_append_single,
      recordGet_eq_none_of_not_any (by rw [Bool.not_eq_true] at hany; exact hany),
      if_pos rfl]
    rfl

theorem recordGet_recordSet_other {α : Type} (m : List (List Char × α))
    (k k' : List Char) (v : α) (h : k' ≠ k) :
    recordGet (recordSet m k v) k' = recordGet m k' := by
  rw [recordSet]
  by_cases hany : m.any (fun p => p.1 == k) = true
  · rw [if_pos hany, recordGet_map_upd_other k k' v h]
  · rw [if_neg hany]
    by_cases hproto : k = "__proto__".data
    · rw [if_pos hproto]
    · rw [if_neg hproto, recordGet_append_single,
        if_neg (fun hh => h hh.symm), orO_none_right]

theorem entryStep_get (e : Int → Option (List Char × List Char))
    (acc : List (List Char × List Char)) (y : Int) (k : List Char)
    (hp : ∀ kv, e y = some kv → kv.1 ≠ "__proto__".data) :
    recordGet (entryStep e acc y) k =
      match e y with
      | some kv => if kv.1 = k then some kv.2 else recordGet acc k
      | none => recordGet acc k := by
  rw [entryStep]
  cases he : e y with
  | none => rfl
  | some kv =>
    show recordGet (recordSet acc kv.1 kv.2) k =
      if kv.1 = k then some kv.2 else recordGet acc k
    by_cases hk : kv.1 = k
    · subst hk
      rw [if_pos rfl]
      exact recordGet_recordSet_self acc kv.1 kv.2 (hp kv he)
    · rw [if_neg hk]
      exact recordGet_recordSet_other acc kv.1 k kv.2 (fun hh => hk hh.symm)

theorem foldl_entryStep_get (e : Int → Option (List Char × List Char)) :
    ∀ (ys : List Int) (acc : List (List Char × List Char)) (k : List Char),
    (∀ y ∈ ys, ∀ kv, e y = some kv → kv.1 ≠ "__proto__".data) →
    recordGet (ys.foldl (entryStep e) acc) k =
      orO (lastVal e ys k) (recordGet acc k) := by
  intro ys
  induction ys with
  | nil => intro acc k _; rfl
  | cons y ys ih =>
    intro acc k hp
    rw [List.foldl_cons,
      ih _ k (fun z hz => hp z (List.mem_cons_of_mem _ hz)), lastVal]
    cases hl : lastVal e ys k with
    | some v => rfl
    | none =>
      rw [entryStep_get _ _ _ _ (hp y (List.mem_cons_self y ys))]
      cases he : e y with
      | none => rfl
      | some kv =>
        by_cases hk : kv.1 = k
        · simp only [if_pos hk]
          try rfl
        · simp only [if_neg hk]
          try rfl

theorem foldl_entryStep_ne_nil (e : Int → Option (List Char × List Char)) :
    ∀ (ys : List Int) (acc : List (List Char × List Char)),
    acc ≠ [] → ys.foldl (entryStep e) acc ≠ [] := by
  intro ys
  induction ys with
  | nil => intro acc h; exact h
  | cons y ys ih =>
    intro acc h
    rw [List.foldl_cons]
    refine ih _ ?_
    rw [entryStep]
    cases he : e y with
    | none => exact h
    | some kv =>
      show recordSet acc kv.1 kv.2 ≠ []
      rw [recordSet]
      by_cases hany : acc.any (fun p => p.1 == kv.1) = true
      · rw [if_pos hany]
        simpa using h
      · rw [if_neg hany]
        by_cases hproto : kv.1 = "__proto__".data
        · rw [if_pos hproto]
          exact h
        · rw [if_neg hproto]
          simp

theorem foldl_entryStep_eq_nil (e : Int → Option (List Char × List Char)) :
    ∀ ys : List Int,
    (∀ y ∈ ys, ∀ kv, e y = some kv → kv.1 ≠ "__proto__".data) →
    (ys.foldl (entryStep e) [] = [] ↔ ∀ y ∈ ys, e y = none) := by
  intro ys
  induction ys with
  | nil => intro _; simp
  | cons y ys ih =>
    intro hp
    have hp' : ∀ z ∈ ys, ∀ kv, e z = some kv → kv.1 ≠ "__proto__".data :=
      fun z hz => hp z (List.mem_cons_of_mem _ hz)
    rw [List.foldl_cons]
    constructor
    · intro h
      cases he : e y with
      | some kv =>
        exfalso
        have hkv := hp y (List.mem_cons_self y ys) kv he
        have hne := foldl_entryStep_ne_nil e ys (entryStep e [] y)
          (by simp [entryStep, he, recordSet, hkv])
        exact hne h
      | none =>
        have hstep : entryStep e [] y = [] := by simp [entryStep, he]
        rw [hstep] at h
        intro z hz
        rcases List.mem_cons.mp hz with rfl | hz'
        · exact he
        · exact ((ih hp').mp h) z hz'
    · intro h
      have hy : e y = none := h y (by simp)
      have hstep : entryStep e [] y = [] := by simp [entryStep, hy]
      rw [hstep]
      exact (ih hp').mpr (fun z hz => h z (by simp [hz]))

theorem keysOf_map_upd {α : Type} (m : List (List Char × α))
    (k : List Char) (v : α) :
    keysOf (m.map (fun p => if p.1 = k then (k, v) else p)) = keysOf m := by
  rw [keysOf, keysOf, List.map_map]
  apply List.map_congr_left
  intro p _
  by_cases hp : p.1 = k
  · simp [hp]
  · simp [hp]

theorem keysOf_recordSet {α : Type} (m : List (List Char × α))
    (k : List Char) (v : α) (h : (keysOf m).Nodup) :
    (keysOf (recordSet m k v)).Nodup := by
  rw [recordSet]
  by_cases hany : m.any (fun p => p.1 == k) = true
  · rw [if_pos hany, keysOf_map_upd]
    exact h
  · rw [if_neg hany]
    by_cases hproto : k = "__proto__".data
    · rw [if_pos hproto]
      exact h
    · rw [if_neg hproto]
      have hk : k ∉ keysOf m := by
        intro hkm
        rw [keysOf, List.mem_map] at hkm
        obtain ⟨p, hp, hpk⟩ := hkm
        rw [Bool.not_eq_true, List.any_eq_false] at hany
        exact hany p hp (by simpa using hpk)
      rw [keysOf, List.map_append]
      refine List.Nodup.append h (by simp) ?_
      intro a ha hb
      simp only [List.map_cons, List.map_nil, List.mem_singleton] at hb
      subst hb
      exact hk ha

theorem notin_keysOf_recordSet {α : Type} (m : List (List Char × α))
    (k : List Char) (v : α) (h : "__proto__".data ∉ keysOf m) :
    "__proto__".data ∉ keysOf (recordSet m k v) := by
  rw [recordSet]
  by_cases hany : m.any (fun p => p.1 == k) = true
  · rw [if_pos hany, keysOf_map_upd]
    exact h
  · rw [if_neg hany]
    by_cases hproto : k = "__proto__".data
    · rw [if_pos hproto]
      exact h
    · rw [if_neg hproto, keysOf, List.map_append]
      intro hmem
      rcases List.mem_append.mp hmem with hm | hm
      · exact h hm
      · simp only [List.map_cons, List.map_nil, List.mem_singleton] at hm
        exact hproto hm.symm

theorem forall_ne_of_notin_keysOf {α : Type} {m : List (List Char × α)}
    {k : List Char} (h : k ∉ keysOf m) :
    ∀ kv ∈ m, kv.1 ≠ k :=
  fun kv hkv he => h (by rw [keysOf, List.mem_map]; exact ⟨kv, hkv, he⟩)

theorem foldl_entryStep_nodup (e : Int → Option (List Char × List Char)) :
    ∀ (ys : List Int) (acc : List (List Char × List Char)),
    (keysOf acc).Nodup → (keysOf (ys.foldl (entryStep e) acc)).Nodup := by
  intro ys
  induction ys with
  | nil => intro acc h; exact h
  | cons y ys ih =>
    intro acc h
    rw [List.foldl_cons]
    refine ih _ ?_
    rw [entryStep]
    cases he : e y with
    | none => exact h
    | some kv => exact keysOf_recordSet acc kv.1 kv.2 h

theorem notin_keysOf_foldl_entryStep
    (e : Int → Option (List Char × List Char)) :
    ∀ (ys : List Int) (acc : List (List Char × List Char)),
    "__proto__".data ∉ keysOf acc →
    "__proto__".data ∉ keysOf (ys.foldl (entryStep e) acc) := by
  intro ys
  induction ys with
  | nil => intro acc h; exact h
  | cons y ys ih =>
    intro acc h
    rw [List.foldl_cons]
    refine ih _ ?_
    rw [entryStep]
    cases he : e y with
    | none => exact h
    | some kv => exact notin_keysOf_recordSet acc kv.1 kv.2 h

theorem lastVal_eq_none (e : Int → Option (List Char × List Char)) :
    ∀ (ys : List Int) (k : List Char),
    lastVal e ys k = none ↔
      ∀ y ∈ ys, ∀ kv, e y = some kv → kv.1 ≠ k := by
  intro ys
  induction ys with
  | nil => intro k; simp [lastVal]
  | cons y ys ih =>
    intro k
    rw [lastVal]
    cases hl : lastVal e ys k with
    | some v =>
      constructor
      · intro h; exact absurd h (by simp)
      · intro h
        exfalso
        have hnone := (ih k).mpr (fun z hz => h z (by simp [hz]))
        rw [hnone] at hl
        exact absurd hl (by simp)
    | none =>
      constructor
      · intro h z hz kv hkv
        rcases List.mem_cons.mp hz with rfl | hz'
        · simp only [hkv] at h
          intro hk1
          rw [if_pos hk1] at h
          exact absurd h (by simp)
        · exact ((ih k).mp hl) z hz' kv hkv
      · intro h
        cases he : e y with
        | none => rfl
        | some kv =>
          have hk := h y (by simp) kv he
          show (if kv.1 = k then some kv.2 else (none : Option (List Char))) =
            none
          rw [if_neg hk]

theorem lastVal_eq_some (e : Int → Option (List Char × List Char)) :
    ∀ ys : List Int, List.Pairwise (· < ·) ys →
    ∀ (k v : List Char),
    (lastVal e ys k = some v ↔
      ∃ y, y ∈ ys ∧ (∃ kv, e y = some kv ∧ kv.1 = k ∧ kv.2 = v) ∧
        ∀ y' ∈ ys, y < y' → ∀ kv', e y' = some kv' → kv'.1 ≠ k) := by
  intro ys
  induction ys with
  | nil => intro _ k v; simp [lastVal]
  | cons y ys ih =>
    intro hp k v
    rw [List.pairwise_cons] at hp
    obtain ⟨hy_lt, hp'⟩ := hp
    rw [lastVal]
    cases hl : lastVal e ys k with
    | some w =>
      constructor
      · intro h
        rw [Option.some.injEq] at h
        subst h
        obtain ⟨z, hz, hent, hlater⟩ := (ih hp' k w).mp hl
        refine ⟨z, List.mem_cons_of_mem _ hz, hent, ?_⟩
        intro y' hy' hlt kv' hkv'
        rcases List.mem_cons.mp hy' with rfl | hy''
        · exact absurd hlt (by have := hy_lt z hz; omega)
        · exact hlater y' hy'' hlt kv' hkv'
      · rintro ⟨z, hz, hent, hlater⟩
        rcases List.mem_cons.mp hz with rfl | hz'
        · exfalso
          have hnone := (lastVal_eq_none e ys k).mpr
            (fun y' hy' kv' hkv' =>
              hlater y' (List.mem_cons_of_mem _ hy') (hy_lt y' hy') kv' hkv')
          rw [hnone] at hl
          exact absurd hl (by simp)
        · have hsome := (ih hp' k v).mpr
            ⟨z, hz', hent, fun y' hy' hlt kv' hkv' =>
              hlater y' (List.mem_cons_of_mem _ hy') hlt kv' hkv'⟩
          rw [hl] at hsome
          exact hsome
    | none =>
      have hys_none := (lastVal_eq_none e ys k).mp hl
      constructor
      · intro h
        cases he : e y with
        | none => simp [he] at h
        | some kv =>
          simp only [he] at h
          by_cases hk : kv.1 = k
          · rw [if_pos hk, Option.some.injEq] at h
            refine ⟨y, List.mem_cons_self y ys, ⟨kv, he, hk, h⟩, ?_⟩
            intro y' hy' hlt kv' hkv'
            rcases List.mem_cons.mp hy' with rfl | hy''
            · exact absurd hlt (lt_irrefl _)
            · exact hys_none y' hy'' kv' hkv'
          · rw [if_neg hk] at h
            exact absurd h (by simp)
      · rintro ⟨z, hz, ⟨kv, hkv, hk1, hk2⟩, hlater⟩
        rcases List.mem_cons.mp hz with rfl | hz'
        · simp only [hkv]
          rw [if_pos hk1, hk2]
        · exact absurd hk1 (hys_none z hz' kv hkv)

theorem mem_windowYears {c : Int} {p f : Nat} {y : Int} :
    y ∈ windowYears c p f ↔
      c - (p : Int) ≤ y ∧ y ≤ c + (f : Int) := by
  simp only [windowYears, List.mem_map, List.mem_range]
  constructor
  · rintro ⟨i, hi, rfl⟩
    omega
  · rintro ⟨h1, h2⟩
    exact ⟨(y - (c - (p : Int))).toNat, by omega, by omega⟩


theorem windowYears_sorted (c : Int) (p f : Nat) :
    List.Pairwise (· < ·) (windowYears c p f) := by
  rw [windowYears]
  exact List.Pairwise.map _ (fun a b hab => by omega)
    (List.pairwise_lt_range _)

theorem buildRangeOutputs_eq_foldl (o : ConvOracle)
    (fmt : List Char → SolarDate → List Char) (lunar : LunarDate)
    (strategy : RuntimeStrategy) (settings : LunarSolarSettings)
    (centerYear : Int) :
    buildRangeOutputs o fmt lunar strategy settings centerYear =
      (windowYears centerYear settings.rangePast settings.rangeFuture).foldl
        (entryStep (rangeEntry o fmt lunar strategy settings)) [] := by
  simp only [buildRangeOutputs]
  congr 1
  funext acc y
  rw [entryStep, rangeEntry]
  cases toSolar o y lunar strategy <;> rfl

theorem rangeEntry_eq_none {o : ConvOracle}
    {fmt : List Char → SolarDate → List Char} {lunar : LunarDate}
    {strategy : RuntimeStrategy} {settings : LunarSolarSettings} {y : Int} :
    rangeEntry o fmt lunar strategy settings y = none ↔
      toSolar o y lunar strategy = none := by
  rw [rangeEntry]
  cases h : toSolar o y lunar strategy <;> simp

/-- C2 (amended): provided no successful year's formatted key is the
string "__proto__" (whose JS assignment on a plain object is a silent
no-op, see `recordSet`), the range loop visits exactly the years from
`centerYear - rangePast` to `centerYear + rangeFuture`, inclusive and in
ascending order; failed years are omitted; the output is empty exactly
when every year in the window fails; the output keys are free of
duplicates; and each key maps to the value of the last (largest)
successful year formatting to that key (last-write-wins). -/
theorem buildRangeOutputs_spec (o : ConvOracle)
    (fmt : List Char → SolarDate → List Char) (lunar : LunarDate)
    (strategy : RuntimeStrategy) (settings : LunarSolarSettings)
    (centerYear : Int)
    (hkeys : ∀ y ∈ windowYears centerYear settings.rangePast
        settings.rangeFuture,
      ∀ d : SolarDate, toSolar o y lunar strategy = some d →
        fmt (escapeLiteralForMoment settings.outputKeyPattern) d ≠
          "__proto__".data) :
    (∀ y : Int,
      y ∈ windowYears centerYear settings.rangePast settings.rangeFuture ↔
        centerYear - (settings.rangePast : Int) ≤ y ∧
        y ≤ centerYear + (settings.rangeFuture : Int))
    ∧ List.Pairwise (· < ·)
        (windowYears centerYear settings.rangePast settings.rangeFuture)
    ∧ (buildRangeOutputs o fmt lunar strategy settings centerYear = [] ↔
        ∀ y ∈ windowYears centerYear settings.rangePast settings.rangeFuture,
          toSolar o y lunar strategy = none)
    ∧ (keysOf (buildRangeOutputs o fmt lunar strategy settings centerYear)).Nodup
    ∧ (∀ k v : List Char,
        recordGet (buildRangeOutputs o fmt lunar strategy settings centerYear)
            k = some v ↔
          ∃ y, y ∈ windowYears centerYear settings.rangePast
              settings.rangeFuture ∧
            (∃ d : SolarDate, toSolar o y lunar strategy = some d ∧
              fmt (escapeLiteralForMoment settings.outputKeyPattern) d = k ∧
              fmt settings.outputDateFormat d = v) ∧
            ∀ y' ∈ windowYears centerYear settings.rangePast
                settings.rangeFuture,
              y < y' → ∀ d' : SolarDate,
                toSolar o y' lunar strategy = some d' →
                fmt (escapeLiteralForMoment settings.outputKeyPattern) d' ≠
                  k) := by
  have hent : ∀ y ∈ windowYears centerYear settings.rangePast
      settings.rangeFuture,
      ∀ kv, rangeEntry o fmt lunar strategy settings y = some kv →
        kv.1 ≠ "__proto__".data := by
    intro y hy kv hkv
    rw [rangeEntry] at hkv
    cases ht : toSolar o y lunar strategy with
    | none => simp [ht] at hkv
    | some d =>
      simp only [ht, Option.some.injEq] at hkv
      rw [← hkv]
      exact hkeys y hy d ht
  refine ⟨fun y => mem_windowYears, windowYears_sorted _ _ _, ?_, ?_, ?_⟩
  · rw [buildRangeOutputs_eq_foldl, foldl_entryStep_eq_nil _ _ hent]
    constructor
    · intro h y hy
      exact rangeEntry_eq_none.mp (h y hy)
    · intro h y hy
      exact rangeEntry_eq_none.mpr (h y hy)
  · rw [buildRangeOutputs_eq_foldl]
    exact foldl_entryStep_nodup _ _ [] (by simp [keysOf])
  · intro k v
    rw [buildRangeOutputs_eq_foldl, foldl_entryStep_get _ _ _ k hent,
      show recordGet ([] : List (List Char × List Char)) k = none from rfl,
      orO_none_right,
      lastVal_eq_some _ _ (windowYears_sorted centerYear
        settings.rangePast settings.rangeFuture) k v]
    constructor
    · rintro ⟨y, hy, ⟨kv, hkv, hk1, hk2⟩, hlater⟩
      rw [rangeEntry] at hkv
      cases ht : toSolar o y lunar strategy with
      | none => simp [ht] at hkv
      | some d =>
        simp only [ht, Option.some.injEq] at hkv
        refine ⟨y, hy, ⟨d, ht, ?_, ?_⟩, ?_⟩
        · rw [← hkv] at hk1; exact hk1
        · rw [← hkv] at hk2; exact hk2
        · intro y' hy' hlt d' htd'
          have hneq := hlater y' hy' hlt
            (fmt (escapeLiteralForMoment settings.outputKeyPattern) d',
              fmt settings.outputDateFormat d')
            (by rw [rangeEntry]; simp only [htd'])
          exact hneq
    · rintro ⟨y, hy, ⟨d, ht, hfk, hfv⟩, hlater⟩
      refine ⟨y, hy,
        ⟨(fmt (escapeLiteralForMoment settings.outputKeyPattern) d,
            fmt settings.outputDateFormat d),
          by rw [rangeEntry]; simp only [ht], hfk, hfv⟩, ?_⟩
      intro y' hy' hlt kv' hkv'
      rw [rangeEntry] at hkv'
      cases ht' : toSolar o y' lunar strategy with
      | none => simp [ht'] at hkv'
      | some d' =>
        simp only [ht', Option.some.injEq] at hkv'
        rw [← hkv']
        exact hlater y' hy' hlt d' ht'

/-- C2 witness: the amended theorem applied at a concrete oracle,
formatter and settings whose keys are never "__proto__". -/
theorem buildRangeOutputs_spec_witness :
    (keysOf (buildRangeOutputs demoOracle demoFmt ⟨2023, 5, 10, false⟩
      (.strat .forward) demoSettings 2025)).Nodup :=
  (buildRangeOutputs_spec demoOracle demoFmt ⟨2023, 5, 10, false⟩
    (.strat .forward) demoSettings 2025
    (by
      intro y hy d hd
      simp only [demoFmt]
      decide)).2.2.2.1

/-- C2 (counterexample): with the output-key pattern `[__proto__]`,
every formatted key is the string "__proto__", whose JS assignment on
the fresh result object is a silent no-op via the inherited
`Object.prototype` setter, so `buildRangeOutputs` returns the empty
record even though the year 2025 lies in the window and converts
successfully — refuting "empty only if every year fails" and "one entry
per successful year". -/
theorem buildRangeOutputs_spec_cex :
    buildRangeOutputs demoOracle protoFmt ⟨2023, 5, 10, false⟩
      (.strat .forward) protoSettings 2025 = []
    ∧ toSolar demoOracle 2025 ⟨2023, 5, 10, false⟩ (.strat .forward) =
        some ⟨2025, 6, 15⟩
    ∧ (2025 : Int) ∈ windowYears 2025 protoSettings.rangePast
        protoSettings.rangeFuture := by
  decide

theorem buildRangeOutputs_keys_nodup (o : ConvOracle)
    (fmt : List Char → SolarDate → List Char) (lunar : LunarDate)
    (strategy : RuntimeStrategy) (settings : LunarSolarSettings)
    (centerYear : Int) :
    (keysOf (buildRangeOutputs o fmt lunar strategy settings
      centerYear)).Nodup := by
  rw [buildRangeOutputs_eq_foldl]
  exact foldl_entryStep_nodup _ _ [] (by simp [keysOf])

theorem notin_keysOf_buildRangeOutputs (o : ConvOracle)
    (fmt : List Char → SolarDate → List Char) (lunar : LunarDate)
    (strategy : RuntimeStrategy) (settings : LunarSolarSettings)
    (centerYear : Int) :
    "__proto__".data ∉
      keysOf (buildRangeOutputs o fmt lunar strategy settings centerYear) := by
  rw [buildRangeOutputs_eq_foldl]
  exact notin_keysOf_foldl_entryStep _ _ [] (by simp [keysOf])

theorem foldl_applyStep_get_other :
    ∀ (updates : List (List Char × List Char))
      (st : List (List Char × JsVal) × Bool) (k : List Char),
    k ∉ keysOf updates →
    recordGet (updates.foldl applyStep st).1 k = recordGet st.1 k := by
  intro updates
  induction updates with
  | nil => intro st k _; rfl
  | cons kv us ih =>
    intro st k hk
    have hk1 : k ≠ kv.1 := by
      intro h
      exact hk (by simp [keysOf, h])
    have hk' : k ∉ keysOf us := by
      intro h
      exact hk (by simp [keysOf] at h ⊢; right; exact h)
    rw [List.foldl_cons, ih _ k hk']
    rw [applyStep]
    by_cases hc : recordGet st.1 kv.1 = some (.vstr kv.2)
    · rw [if_pos hc]
    · rw [if_neg hc]
      exact recordGet_recordSet_other st.1 kv.1 k (.vstr kv.2) hk1

theorem foldl_applyStep_get_self :
    ∀ (updates : List (List Char × List Char))
      (st : List (List Char × JsVal) × Bool),
    (keysOf updates).Nodup →
    (∀ kv ∈ updates, kv.1 ≠ "__proto__".data) →
    ∀ kv ∈ updates,
      recordGet (updates.foldl applyStep st).1 kv.1 = some (.vstr kv.2) := by
  intro updates
  induction updates with
  | nil => intro st _ _ kv hkv; exact absurd hkv (by simp)
  | cons kv0 us ih =>
    intro st hnd hpr kv hkv
    have hnd' : (keysOf us).Nodup := by
      rw [keysOf, List.map_cons, List.nodup_cons] at hnd
      exact hnd.2
    have hk0 : kv0.1 ∉ keysOf us := by
      rw [keysOf, List.map_cons, List.nodup_cons] at hnd
      exact hnd.1
    rcases List.mem_cons.mp hkv with rfl | hkv'
    · rw [List.foldl_cons, foldl_applyStep_get_other us _ kv.1 hk0]
      rw [applyStep]
      by_cases hc : recordGet st.1 kv.1 = some (.vstr kv.2)
      · rw [if_pos hc]
        exact hc
      · rw [if_neg hc]
        exact recordGet_recordSet_self st.1 kv.1 (.vstr kv.2)
          (hpr kv (List.mem_cons_self kv us))
    · rw [List.foldl_cons]
      exact ih _ hnd' (fun z hz => hpr z (List.mem_cons_of_mem _ hz)) kv hkv'

theorem foldl_applyStep_no_change :
    ∀ (updates : List (List Char × List Char))
      (st : List (List Char × JsVal) × Bool),
    (∀ kv ∈ updates, recordGet st.1 kv.1 = some (.vstr kv.2)) →
    updates.foldl applyStep st = st := by
  intro updates
  induction updates with
  | nil => intro st _; rfl
  | cons kv us ih =>
    intro st h
    rw [List.foldl_cons,
      show applyStep st kv = st from by
        rw [applyStep, if_pos (h kv (by simp))]]
    exact ih st (fun kv' hkv' => h kv' (by simp [hkv']))

theorem foldl_applyStep_flag_mono :
    ∀ (updates : List (List Char × List Char))
      (st : List (List Char × JsVal) × Bool),
    st.2 = true → (updates.foldl applyStep st).2 = true := by
  intro updates
  induction updates with
  | nil => intro st h; exact h
  | cons kv us ih =>
    intro st h
    rw [List.foldl_cons]
    refine ih _ ?_
    rw [applyStep]
    by_cases hc : recordGet st.1 kv.1 = some (.vstr kv.2)
    · rw [if_pos hc]; exact h
    · rw [if_neg hc]

theorem foldl_applyStep_unchanged :
    ∀ (updates : List (List Char × List Char))
      (st : List (List Char × JsVal) × Bool),
    (updates.foldl applyStep st).2 = false →
    updates.foldl applyStep st = st ∧
      ∀ kv ∈ updates, recordGet st.1 kv.1 = some (.vstr kv.2) := by
  intro updates
  induction updates with
  | nil => intro st _; exact ⟨rfl, by simp⟩
  | cons kv us ih =>
    intro st h
    rw [List.foldl_cons] at h
    have hstep : applyStep st kv = st := by
      rw [applyStep]
      by_cases hc : recordGet st.1 kv.1 = some (.vstr kv.2)
      · rw [if_pos hc]
      · rw [if_neg hc]
        exfalso
        have := foldl_applyStep_flag_mono us
          (recordSet st.1 kv.1 (.vstr kv.2), true) rfl
        rw [applyStep, if_neg hc] at h
        rw [h] at this
        exact absurd this (by simp)
    rw [hstep] at h
    obtain ⟨hfold, hconds⟩ := ih st h
    refine ⟨?_, ?_⟩
    · rw [List.foldl_cons, hstep, hfold]
    · intro kv' hkv'
      rcases List.mem_cons.mp hkv' with rfl | hkv''
      · rw [applyStep] at hstep
        by_cases hc : recordGet st.1 kv'.1 = some (.vstr kv'.2)
        · exact hc
        · rw [if_neg hc] at hstep
          exfalso
          have hst2 : st.2 = true := by
            have := congrArg Prod.snd hstep
            simpa using this.symm
          have hm := foldl_applyStep_flag_mono us st hst2
          rw [h] at hm
          exact absurd hm (by simp)
      · exact hconds kv' hkv''

theorem writeFrontmatter_post (doc : Doc) (fm : List (List Char × JsVal))
    (hdoc : doc.frontmatter = some fm)
    (U : List (List Char × List Char)) (hU : (keysOf U).Nodup)
    (hpr : ∀ kv ∈ U, kv.1 ≠ "__proto__".data) :
    ∃ m1, (writeFrontmatter doc U).2.frontmatter = some m1 ∧
      ∀ kv ∈ U, recordGet m1 kv.1 = some (.vstr kv.2) := by
  simp only [writeFrontmatter, hdoc]
  cases hflag : (applyUpdates fm U).2 with
  | true =>
    rw [if_pos rfl]
    exact ⟨(applyUpdates fm U).1, rfl,
      foldl_applyStep_get_self U (fm, false) hU hpr⟩
  | false =>
    rw [if_neg (by simp)]
    refine ⟨fm, hdoc, ?_⟩
    exact (foldl_applyStep_unchanged U (fm, false) hflag).2

theorem writeFrontmatter_unchanged (doc : Doc)
    (fm : List (List Char × JsVal)) (hdoc : doc.frontmatter = some fm)
    (U : List (List Char × List Char))
    (h : ∀ kv ∈ U, recordGet fm kv.1 = some (.vstr kv.2)) :
    writeFrontmatter doc U = (false, doc) := by
  simp only [writeFrontmatter, hdoc]
  have hfold : applyUpdates fm U = (fm, false) :=
    foldl_applyStep_no_change U (fm, false) h
  rw [hfold]
  rfl

/-- C9 (amended): per-document processing is idempotent for every
document the first run processes to completion (outcome Updated or
Unchanged), provided the write leaves the source field and the
strategy-override field unchanged (the claim's "unchanged source
metadata"): the second run, with the same settings and the same today,
is Unchanged. -/
theorem processFile_idem (o : ConvOracle)
    (fmt : List Char → SolarDate → List Char) (today : SolarDate)
    (settings : LunarSolarSettings) (doc : Doc) (out1 : Outcome)
    (doc1 : Doc)
    (hrun : processFile o fmt today settings doc = (out1, doc1))
    (hout : out1 = Outcome.updated ∨ out1 = Outcome.unchanged)
    (hsrc : fmGet doc1 settings.sourceKey = fmGet doc settings.sourceKey)
    (hleap : fmGet doc1 settings.leapStrategyKey =
      fmGet doc settings.leapStrategyKey) :
    (processFile o fmt today settings doc1).1 = Outcome.unchanged := by
  cases hfm : doc.frontmatter with
  | none =>
    simp only [processFile, hfm] at hrun
    rw [Prod.mk.injEq] at hrun
    exact absurd hrun.1 (by rcases hout with rfl | rfl <;> simp)
  | some fm =>
    simp only [processFile, hfm] at hrun
    cases hraw : recordGet fm settings.sourceKey with
    | none =>
      simp only [hraw] at hrun
      rw [Prod.mk.injEq] at hrun
      exact absurd hrun.1 (by rcases hout with rfl | rfl <;> simp)
    | some jv =>
      cases jv with
      | vother =>
        simp only [hraw] at hrun
        rw [Prod.mk.injEq] at hrun
        exact absurd hrun.1 (by rcases hout with rfl | rfl <;> simp)
      | vstr raw =>
        simp only [hraw] at hrun
        cases hlun : parseLunar raw with
        | none =>
          simp only [hlun] at hrun
          rw [Prod.mk.injEq] at hrun
          exact absurd hrun.1 (by rcases hout with rfl | rfl <;> simp)
        | some lunar =>
          simp only [hlun] at hrun
          cases hmode : settings.outputMode with
          | single =>
            simp only [hmode] at hrun
            cases hsol : findNextSolar o today lunar
                (parseLeapStrategy (recordGet fm settings.leapStrategyKey)
                  settings.defaultLeapStrategy) with
            | none =>
              simp only [hsol] at hrun
              rw [Prod.mk.injEq] at hrun
              exact absurd hrun.1 (by rcases hout with rfl | rfl <;> simp)
            | some solar =>
              simp only [hsol] at hrun
              rw [Prod.mk.injEq] at hrun
              obtain ⟨hout1, hdoc1⟩ := hrun
              obtain ⟨m1, hm1, hget⟩ := writeFrontmatter_post doc fm hfm
                (recordSet [] settings.outputKeySingle
                  (fmt settings.outputDateFormat solar))
                (keysOf_recordSet [] settings.outputKeySingle
                  (fmt settings.outputDateFormat solar) (by simp [keysOf]))
                (forall_ne_of_notin_keysOf
                  (notin_keysOf_recordSet [] settings.outputKeySingle
                    (fmt settings.outputDateFormat solar)
                    (by simp [keysOf])))
              rw [hdoc1] at hm1
              have hsrc2 : recordGet m1 settings.sourceKey =
                  some (.vstr raw) := by
                rw [show fmGet doc1 settings.sourceKey =
                    recordGet m1 settings.sourceKey from by rw [fmGet, hm1],
                  show fmGet doc settings.sourceKey =
                    recordGet fm settings.sourceKey from by rw [fmGet, hfm],
                  hraw] at hsrc
                exact hsrc
              have hleap2 : recordGet m1 settings.leapStrategyKey =
                  recordGet fm settings.leapStrategyKey := by
                rw [show fmGet doc1 settings.leapStrategyKey =
                    recordGet m1 settings.leapStrategyKey from by
                      rw [fmGet, hm1],
                  show fmGet doc settings.leapStrategyKey =
                    recordGet fm settings.leapStrategyKey from by
                      rw [fmGet, hfm]] at hleap
                exact hleap
              simp only [processFile, hm1, hsrc2, hlun, hleap2, hmode, hsol]
              rw [writeFrontmatter_unchanged doc1 m1 hm1 _ hget]
              rfl
          | range =>
            simp only [hmode] at hrun
            by_cases hemp : buildRangeOutputs o fmt lunar
                (parseLeapStrategy (recordGet fm settings.leapStrategyKey)
                  settings.defaultLeapStrategy) settings today.year = []
            · rw [if_pos hemp, Prod.mk.injEq] at hrun
              exact absurd hrun.1 (by rcases hout with rfl | rfl <;> simp)
            · rw [if_neg hemp, Prod.mk.injEq] at hrun
              obtain ⟨hout1, hdoc1⟩ := hrun
              obtain ⟨m1, hm1, hget⟩ := writeFrontmatter_post doc fm hfm
                (buildRangeOutputs o fmt lunar
                  (parseLeapStrategy (recordGet fm settings.leapStrategyKey)
                    settings.defaultLeapStrategy) settings today.year)
                (buildRangeOutputs_keys_nodup _ _ _ _ _ _)
                (forall_ne_of_notin_keysOf
                  (notin_keysOf_buildRangeOutputs _ _ _ _ _ _))
              rw [hdoc1] at hm1
              have hsrc2 : recordGet m1 settings.sourceKey =
                  some (.vstr raw) := by
                rw [show fmGet doc1 settings.sourceKey =
                    recordGet m1 settings.sourceKey from by rw [fmGet, hm1],
                  show fmGet doc settings.sourceKey =
                    recordGet fm settings.sourceKey from by rw [fmGet, hfm],
                  hraw] at hsrc
                exact hsrc
              have hleap2 : recordGet m1 settings.leapStrategyKey =
                  recordGet fm settings.leapStrategyKey := by
                rw [show fmGet doc1 settings.leapStrategyKey =
                    recordGet m1 settings.leapStrategyKey from by
                      rw [fmGet, hm1],
                  show fmGet doc settings.leapStrategyKey =
                    recordGet fm settings.leapStrategyKey from by
                      rw [fmGet, hfm]] at hleap
                exact hleap
              simp only [processFile, hm1, hsrc2, hlun, hleap2, hmode]
              rw [if_neg hemp, writeFrontmatter_unchanged doc1 m1 hm1 _ hget]
              rfl

/-- C9 witness: the amended theorem applied at a concrete document whose
first run updates it: the second run is Unchanged. -/
theorem processFile_idem_witness :
    (processFile demoOracle demoFmt ⟨2025, 3, 1⟩ demoSettings demoDoc1).1 =
      Outcome.unchanged :=
  processFile_idem demoOracle demoFmt ⟨2025, 3, 1⟩ demoSettings demoDoc
    Outcome.updated demoDoc1 (by decide) (Or.inl rfl) (by decide) (by decide)

/-- C9 (counterexample): a document with no metadata block is Skipped by
both runs, so running processing twice does not always make the second
run Unchanged. -/
theorem processFile_idem_cex :
    (processFile demoOracle demoFmt ⟨2025, 3, 1⟩ demoSettings
        (processFile demoOracle demoFmt ⟨2025, 3, 1⟩ demoSettings
          ⟨none⟩).2).1 ≠ Outcome.unchanged := by
  decide

end LunarSolar
